import Mathlib

/-!
Verification of the branch-stacking tool in src/main.rs.

The external git and gh processes are modelled as environments: a lookup
function for the persisted stack-parent configuration, boolean oracles for
branch existence, merged state and command success, and trace lists recording
which external operations the code attempts, in order.  Unbounded loops and
recursion over the (possibly cyclic) parent links are given explicit fuel.
-/

set_option maxHeartbeats 1000000

/-- The external state consulted by cmd_land while building its plan
(main.rs lines 280-364): the stack-parent config entry of each branch
(none when the git config call fails), the result of branch_exists and the
result of is_merged_into_main. -/
structure LandEnv where
  parent : String → Option String
  branchExists : String → Bool
  mergedIntoMain : String → Bool

/-- The upward walk of cmd_land (main.rs lines 287-301).  Fuel stands for the
unbounded loop; each step resolves the stack-parent of the walk position,
stops on a missing entry or on parent "main", appends the parent to the
accumulator when it exists and is not merged, and always moves the walk
position to the parent. -/
def landWalkAux (env : LandEnv) : Nat → String → List String → List String
  | 0, _, acc => acc
  | n+1, branch, acc =>
    match env.parent branch with
    | none => acc
    | some p =>
      if p = "main" then acc
      else
        landWalkAux env n p
          (if env.branchExists p && !env.mergedIntoMain p then acc ++ [p] else acc)

/-- The stack collected by cmd_land before the reversal (main.rs lines
284-301): seeded with the current branch, then extended by the upward walk. -/
def landStack (env : LandEnv) (fuel : Nat) (current : String) : List String :=
  landWalkAux env fuel current [current]

/-- The plan cmd_land executes (main.rs line 304): the collected stack
reversed, so the branch nearest trunk comes first. -/
def landPlan (env : LandEnv) (fuel : Nat) (current : String) : List String :=
  (landStack env fuel current).reverse

/-- Parent links for the chain D → C → B → A → main used by the land-plan
examples. -/
def chainParents : String → Option String := fun b =>
  if b = "D" then some "C"
  else if b = "C" then some "B"
  else if b = "B" then some "A"
  else if b = "A" then some "main"
  else none

/-- Chain environment in which only B is already merged into main. -/
def envC3 : LandEnv :=
  ⟨chainParents, fun _ => true, fun b => b == "B"⟩

/-- Chain environment in which no branch is merged into main. -/
def envC4 : LandEnv :=
  ⟨chainParents, fun _ => true, fun _ => false⟩

/-- Environment with no parent links configured at all. -/
def envMainOnly : LandEnv :=
  ⟨fun _ => none, fun _ => true, fun _ => false⟩

/-- Environment where the single branch "feature" sits directly on main and
every branch is already merged into main. -/
def envC9 : LandEnv :=
  ⟨fun b => if b = "feature" then some "main" else none, fun _ => true, fun _ => true⟩

/-- The upward walk only ever appends to its accumulator. -/
theorem landWalkAux_append (env : LandEnv) :
    ∀ (n : Nat) (b : String) (acc : List String),
      ∃ t, landWalkAux env n b acc = acc ++ t := by
  intro n
  induction n with
  | zero =>
    intro b acc
    exact ⟨[], by simp [landWalkAux]⟩
  | succ n ih =>
    intro b acc
    cases h : env.parent b with
    | none => exact ⟨[], by simp [landWalkAux, h]⟩
    | some p =>
      simp only [landWalkAux, h]
      by_cases hp : p = "main"
      · rw [if_pos hp]
        exact ⟨[], by simp⟩
      · rw [if_neg hp]
        by_cases hb : (env.branchExists p && !env.mergedIntoMain p) = true
        · rw [if_pos hb]
          obtain ⟨t, ht⟩ := ih p (acc ++ [p])
          exact ⟨[p] ++ t, by rw [ht, List.append_assoc]⟩
        · rw [if_neg hb]
          exact ih p acc

/-- The trunk name "main" enters the walk accumulator only if it was already
there: a resolved parent equal to "main" stops the walk before the append. -/
theorem main_not_added_landWalkAux (env : LandEnv) :
    ∀ (n : Nat) (b : String) (acc : List String),
      ("main" ∈ landWalkAux env n b acc ↔ "main" ∈ acc) := by
  intro n
  induction n with
  | zero =>
    intro b acc
    simp [landWalkAux]
  | succ n ih =>
    intro b acc
    cases h : env.parent b with
    | none => simp [landWalkAux, h]
    | some p =>
      simp only [landWalkAux, h]
      by_cases hp : p = "main"
      · rw [if_pos hp]
      · rw [if_neg hp]
        by_cases hb : (env.branchExists p && !env.mergedIntoMain p) = true
        · rw [if_pos hb, ih]
          constructor
          · intro hm
            rcases List.mem_append.mp hm with h1 | h1
            · exact h1
            · exact absurd (List.mem_singleton.mp h1).symm hp
          · intro hm
            exact List.mem_append.mpr (Or.inl hm)
        · rw [if_neg hb]
          exact ih p acc

/-- Claim C3: during the upward walk an already-merged ancestor is skipped but
the walk continues from it (the walk position still moves to that parent), and
on the chain D → C → B → A → main with only B merged the computed plan is
[A, C, D]. -/
theorem cmd_land_skips_merged :
    (∀ (env : LandEnv) (n : Nat) (b p : String) (acc : List String),
        env.parent b = some p → p ≠ "main" → env.mergedIntoMain p = true →
        landWalkAux env (n+1) b acc = landWalkAux env n p acc)
    ∧ landPlan envC3 8 "D" = ["A", "C", "D"] := by
  constructor
  · intro env n b p acc hp hmain hm
    simp [landWalkAux, hp, hmain, hm]
  · decide

/-- Witness for C3: a concrete merged-ancestor step of the walk. -/
theorem cmd_land_skips_merged_witness :
    landWalkAux envC3 3 "C" [] = landWalkAux envC3 2 "B" [] :=
  cmd_land_skips_merged.1 envC3 2 "C" "B" [] (by decide) (by decide) (by decide)

/-- Claim C4: on the chain D → C → B → A → main with nothing merged the raw
upward walk collects [D, C, B, A] (nearest to current first) and the plan is
its reversal [A, B, C, D]; in general the plan is always the reversal of the
collected stack. -/
theorem cmd_land_plan_reverses_walk :
    landStack envC4 8 "D" = ["D", "C", "B", "A"]
    ∧ landPlan envC4 8 "D" = ["A", "B", "C", "D"]
    ∧ ∀ (env : LandEnv) (n : Nat) (c : String),
        landPlan env n c = (landStack env n c).reverse :=
  ⟨by decide, by decide, fun _ _ _ => rfl⟩

/-- Counterexample to claim C1 as stated: when the current branch is "main"
itself (and main has no recorded parent), the computed plan contains "main". -/
theorem cmd_land_plan_contains_main_cex :
    "main" ∈ landPlan envMainOnly 4 "main" := by decide

/-- Claim C1 amended: the upward walk never adds the trunk "main" to the plan
(a resolved parent equal to "main" stops the walk), but the current branch is
seeded into the plan unconditionally, so the plan contains "main" exactly when
the current branch is "main" itself. -/
theorem cmd_land_plan_main_iff :
    ∀ (env : LandEnv) (fuel : Nat) (current : String),
      ("main" ∈ landPlan env fuel current ↔ current = "main") := by
  intro env fuel current
  unfold landPlan landStack
  rw [List.mem_reverse, main_not_added_landWalkAux]
  simp [eq_comm]

/-- External operations attempted by the execution phase of cmd_land
(main.rs lines 322-348), in the order the code issues them. -/
inductive LandOp where
  | checkoutMain
  | pullMain
  | mergeSquash (b : String)
  | getMsg (b : String)
  | commit (b : String)
  | deleteLocal (b : String)
  | deleteRemote (b : String)
  | unsetLink (b : String)
  | pushMain
deriving DecidableEq, Repr

/-- Outcome of cmd_land in the model: normal completion, the explicit
"Nothing to land" error, or a propagated external-command failure. -/
inductive LandResult where
  | success
  | nothingToLand
  | failed
deriving DecidableEq, Repr

/-- The per-branch body of the landing loop (main.rs lines 325-345): squash
merge, read the last commit message, commit, delete the branch locally (all
four propagate failure), then attempt the remote deletion and the config unset
whose results the code discards.  Returns the attempted operations and whether
the loop may continue. -/
def landMergeOne (ok : LandOp → Bool) (b : String) : List LandOp × Bool :=
  if ok (LandOp.mergeSquash b) = false then
    ([LandOp.mergeSquash b], false)
  else if ok (LandOp.getMsg b) = false then
    ([LandOp.mergeSquash b, LandOp.getMsg b], false)
  else if ok (LandOp.commit b) = false then
    ([LandOp.mergeSquash b, LandOp.getMsg b, LandOp.commit b], false)
  else if ok (LandOp.deleteLocal b) = false then
    ([LandOp.mergeSquash b, LandOp.getMsg b, LandOp.commit b, LandOp.deleteLocal b], false)
  else
    ([LandOp.mergeSquash b, LandOp.getMsg b, LandOp.commit b, LandOp.deleteLocal b,
      LandOp.deleteRemote b, LandOp.unsetLink b], true)

/-- The landing loop over the plan (main.rs lines 325-345): each branch is
processed in order; the first propagated failure stops the loop. -/
def landLoop (ok : LandOp → Bool) : List String → List LandOp × Bool
  | [] => ([], true)
  | b :: rest =>
    match landMergeOne ok b with
    | (t, true) =>
      match landLoop ok rest with
      | (t2, s2) => (t ++ t2, s2)
    | (t, false) => (t, false)

/-- The execution phase of cmd_land after confirmation (main.rs lines
306-348): the empty-plan check comes first and errors with "Nothing to land"
before any mutation; then checkout main, pull, the landing loop, and the final
push of main. -/
def landExec (ok : LandOp → Bool) (stack : List String) : List LandOp × LandResult :=
  if stack.isEmpty then ([], LandResult.nothingToLand)
  else if ok LandOp.checkoutMain = false then ([LandOp.checkoutMain], LandResult.failed)
  else if ok LandOp.pullMain = false then
    ([LandOp.checkoutMain, LandOp.pullMain], LandResult.failed)
  else
    match landLoop ok stack with
    | (t, true) =>
      if ok LandOp.pushMain then
        ([LandOp.checkoutMain, LandOp.pullMain] ++ t ++ [LandOp.pushMain], LandResult.success)
      else
        ([LandOp.checkoutMain, LandOp.pullMain] ++ t ++ [LandOp.pushMain], LandResult.failed)
    | (t, false) => ([LandOp.checkoutMain, LandOp.pullMain] ++ t, LandResult.failed)

/-- Unfolding of the landing loop when the head branch succeeds. -/
theorem landLoop_cons_true (ok : LandOp → Bool) (b : String) (rest : List String)
    (h : (landMergeOne ok b).2 = true) :
    landLoop ok (b :: rest)
      = ((landMergeOne ok b).1 ++ (landLoop ok rest).1, (landLoop ok rest).2) := by
  cases hm : landMergeOne ok b with
  | mk t s =>
    cases hl : landLoop ok rest with
    | mk t2 s2 =>
      rw [hm] at h
      simp only at h
      subst h
      simp [landLoop, hm, hl]

/-- Unfolding of the landing loop when the head branch fails. -/
theorem landLoop_cons_false (ok : LandOp → Bool) (b : String) (rest : List String)
    (h : (landMergeOne ok b).2 = false) :
    landLoop ok (b :: rest) = landMergeOne ok b := by
  cases hm : landMergeOne ok b with
  | mk t s =>
    rw [hm] at h
    simp only at h
    subst h
    simp [landLoop, hm]

/-- Claim C7: a failed squash merge or failed commit aborts the rest of the
plan at once (later branches get no operations, earlier results stay); a fully
successful prefix stays landed when the next merge fails; and the per-branch
success flag depends only on merge, message read, commit and local deletion,
never on the discarded remote deletion or config unset. -/
theorem cmd_land_abort_and_swallow :
    ∀ (ok : LandOp → Bool) (b : String) (rest : List String),
      (ok (LandOp.mergeSquash b) = false →
        landLoop ok (b :: rest) = ([LandOp.mergeSquash b], false))
      ∧ (ok (LandOp.mergeSquash b) = true → ok (LandOp.getMsg b) = true →
          ok (LandOp.commit b) = false →
          landLoop ok (b :: rest) =
            ([LandOp.mergeSquash b, LandOp.getMsg b, LandOp.commit b], false))
      ∧ (landMergeOne ok b).2
          = (ok (LandOp.mergeSquash b) && ok (LandOp.getMsg b) && ok (LandOp.commit b)
              && ok (LandOp.deleteLocal b))
      ∧ ∀ (pre post : List String),
          (landLoop ok pre).2 = true → ok (LandOp.mergeSquash b) = false →
          landLoop ok (pre ++ b :: post)
            = ((landLoop ok pre).1 ++ [LandOp.mergeSquash b], false) := by
  intro ok b rest
  refine ⟨?_, ?_, ?_, ?_⟩
  · intro h
    simp [landLoop, landMergeOne, h]
  · intro h1 h2 h3
    simp [landLoop, landMergeOne, h1, h2, h3]
  · cases h1 : ok (LandOp.mergeSquash b) with
    | false => simp [landMergeOne, h1]
    | true =>
      cases h2 : ok (LandOp.getMsg b) with
      | false => simp [landMergeOne, h1, h2]
      | true =>
        cases h3 : ok (LandOp.commit b) with
        | false => simp [landMergeOne, h1, h2, h3]
        | true =>
          cases h4 : ok (LandOp.deleteLocal b) with
          | false => simp [landMergeOne, h1, h2, h3, h4]
          | true => simp [landMergeOne, h1, h2, h3, h4]
  · intro pre
    induction pre with
    | nil =>
      intro post hpre hb
      simp [landLoop, landMergeOne, hb]
    | cons p ps ih =>
      intro post hpre hb
      cases hx : (landMergeOne ok p).2 with
      | false =>
        rw [landLoop_cons_false ok p ps hx, hx] at hpre
        exact absurd hpre (by simp)
      | true =>
        have hpre2 : (landLoop ok ps).2 = true := by
          rw [landLoop_cons_true ok p ps hx] at hpre
          simpa using hpre
        rw [List.cons_append, landLoop_cons_true ok p (ps ++ b :: post) hx,
            ih post hpre2 hb, landLoop_cons_true ok p ps hx]
        simp

/-- Oracle under which every external call succeeds except the squash merge of
branch "y". -/
def okFailMergeY : LandOp → Bool := fun o => decide (o ≠ LandOp.mergeSquash "y")

/-- Witness for C7: after branch "x" lands, the failed squash merge of "y"
stops the loop before branch "z" gets any operation. -/
theorem cmd_land_abort_and_swallow_witness :
    landLoop okFailMergeY (["x"] ++ "y" :: ["z"])
      = ((landLoop okFailMergeY ["x"]).1 ++ [LandOp.mergeSquash "y"], false) :=
  (cmd_land_abort_and_swallow okFailMergeY "y" []).2.2.2 ["x"] ["z"] (by decide) (by decide)

/-- With an all-successful oracle the landing loop reports success. -/
theorem landLoop_all_ok (l : List String) : (landLoop (fun _ => true) l).2 = true := by
  induction l with
  | nil => rfl
  | cons p ps ih =>
    have hx : (landMergeOne (fun _ => true) p).2 = true := by simp [landMergeOne]
    rw [landLoop_cons_true _ p ps hx]
    simpa using ih

/-- With an all-successful oracle every branch of the plan gets its squash
merge attempted. -/
theorem mergeSquash_mem_landLoop :
    ∀ (l : List String) (b : String), b ∈ l →
      LandOp.mergeSquash b ∈ (landLoop (fun _ => true) l).1 := by
  intro l
  induction l with
  | nil => intro b hb; cases hb
  | cons p ps ih =>
    intro b hb
    have hx : (landMergeOne (fun _ => true) p).2 = true := by simp [landMergeOne]
    rw [landLoop_cons_true _ p ps hx]
    rcases List.mem_cons.mp hb with h | h
    · subst h
      simp [landMergeOne]
    · have := ih b h
      simp only []
      exact List.mem_append.mpr (Or.inr this)

/-- A nonempty plan never produces the "Nothing to land" outcome. -/
theorem landExec_ne_nothing (ok : LandOp → Bool) (l : List String) (h : l ≠ []) :
    (landExec ok l).2 ≠ LandResult.nothingToLand := by
  have he : l.isEmpty = false := by
    cases l with
    | nil => exact absurd rfl h
    | cons a as => rfl
  unfold landExec
  rw [he]
  simp only [Bool.false_eq_true, if_false]
  split
  · simp
  · split
    · simp
    · split
      · split <;> simp
      · simp

/-- With an all-successful oracle, cmd_land on a nonempty plan checks out
main, pulls, runs the landing loop and pushes main. -/
theorem landExec_all_ok_trace (l : List String) (h : l ≠ []) :
    landExec (fun _ => true) l
      = ([LandOp.checkoutMain, LandOp.pullMain] ++ (landLoop (fun _ => true) l).1
          ++ [LandOp.pushMain], LandResult.success) := by
  have he : l.isEmpty = false := by
    cases l with
    | nil => exact absurd rfl h
    | cons a as => rfl
  have hl : (landLoop (fun _ => true) l).2 = true := landLoop_all_ok l
  cases hll : landLoop (fun _ => true) l with
  | mk t2 s2 =>
    rw [hll] at hl
    simp only at hl
    subst hl
    simp [landExec, he, hll]

/-- Counterexample to claim C9 as stated: with the current branch "feature"
already merged into main (nothing needs landing) the plan is still the
nonempty ["feature"]. -/
theorem cmd_land_plan_nonempty_cex :
    envC9.mergedIntoMain "feature" = true ∧ landPlan envC9 4 "feature" = ["feature"] := by
  exact ⟨rfl, by decide⟩

/-- Claim C9 amended: the plan always contains the current branch so it is
never the empty sequence, even when nothing needs landing; the execution phase
given an empty plan would report the "Nothing to land" failure without
attempting any operation, but that branch is unreachable from the computed
plan. -/
theorem cmd_land_plan_never_empty :
    (∀ (env : LandEnv) (fuel : Nat) (c : String), landPlan env fuel c ≠ [])
    ∧ ∀ ok : LandOp → Bool, landExec ok [] = ([], LandResult.nothingToLand) := by
  constructor
  · intro env fuel c
    obtain ⟨t, ht⟩ := landWalkAux_append env fuel c [c]
    simp [landPlan, landStack, ht]
  · intro ok
    rfl

/-- Claim C10: the plan always contains the current branch, as its last
element after the reversal, hence is never empty; the "Nothing to land" error
is unreachable for a computed plan; and (with every external call succeeding)
cmd_land attempts the squash merge of the current branch whatever the
environment says about it, including when it is already merged or is main. -/
theorem cmd_land_plan_always_has_current :
    ∀ (env : LandEnv) (fuel : Nat) (c : String) (ok : LandOp → Bool),
      c ∈ landPlan env fuel c
      ∧ (landPlan env fuel c).getLast? = some c
      ∧ (landExec ok (landPlan env fuel c)).2 ≠ LandResult.nothingToLand
      ∧ LandOp.mergeSquash c ∈ (landExec (fun _ => true) (landPlan env fuel c)).1 := by
  intro env fuel c ok
  obtain ⟨t, ht⟩ := landWalkAux_append env fuel c [c]
  have hplan : landPlan env fuel c = t.reverse ++ [c] := by
    simp [landPlan, landStack, ht]
  have hmem : c ∈ landPlan env fuel c := by
    rw [hplan]
    exact List.mem_append.mpr (Or.inr (List.mem_singleton.mpr rfl))
  have hne : landPlan env fuel c ≠ [] := by
    rw [hplan]
    simp
  refine ⟨hmem, ?_, landExec_ne_nothing ok _ hne, ?_⟩
  · rw [hplan, List.getLast?_append_cons]
    rfl
  · rw [landExec_all_ok_trace _ hne]
    have := mergeSquash_mem_landLoop _ c hmem
    simp only []
    simp [List.mem_append, this]

/-- External git operations attempted by recursive_rebase (main.rs lines
122-135): checking out a child branch and rebasing the checked-out branch onto
the given branch. -/
inductive GitOp where
  | checkout (b : String)
  | rebase (onto : String)
deriving DecidableEq, Repr

/-- Outcome of a modelled recursive_rebase run: success, a propagated command
failure, or fuel exhaustion (the source recursion is unbounded). -/
inductive RStat where
  | ok
  | fail
  | out
deriving DecidableEq, Repr

/-- The loop of recursive_rebase over the children of the current branch
(main.rs lines 128-133): for each child in recorded order, checkout, rebase
onto the current branch, then recurse into the child (through the supplied
continuation); each of the three propagates failure before the next sibling
is touched. -/
def rebaseKids (ok : GitOp → Bool) (recur : String → List GitOp × RStat) (cur : String) :
    List String → List GitOp × RStat
  | [] => ([], RStat.ok)
  | c :: rest =>
    if ok (GitOp.checkout c) = false then ([GitOp.checkout c], RStat.fail)
    else if ok (GitOp.rebase cur) = false then
      ([GitOp.checkout c, GitOp.rebase cur], RStat.fail)
    else
      let r := recur c
      if r.2 = RStat.ok then
        let k := rebaseKids ok recur cur rest
        (GitOp.checkout c :: GitOp.rebase cur :: (r.1 ++ k.1), k.2)
      else (GitOp.checkout c :: GitOp.rebase cur :: r.1, r.2)

/-- recursive_rebase (main.rs lines 122-135) with explicit fuel: a branch with
no recorded children performs no operation and succeeds; otherwise its
children are processed in the recorded order, each subtree completing before
the next sibling starts. -/
def recursiveRebase (ok : GitOp → Bool) (cm : String → List String) :
    Nat → String → List GitOp × RStat
  | 0, _ => ([], RStat.out)
  | n+1, cur => rebaseKids ok (recursiveRebase ok cm n) cur (cm cur)

/-- Child map of the linear chain A → B → C → D (each child linked to the
previous branch). -/
def chainCM : String → List String := fun b =>
  if b = "A" then ["B"]
  else if b = "B" then ["C"]
  else if b = "C" then ["D"]
  else []

/-- A successful pass over a child list is exactly the pre-order trace: for
each child in order, its checkout, its rebase onto the current branch, then
its whole subtree trace. -/
theorem rebaseKids_preorder (ok : GitOp → Bool) (recur : String → List GitOp × RStat)
    (cur : String) (hok : ∀ o, ok o = true) :
    ∀ l, (rebaseKids ok recur cur l).2 = RStat.ok →
      (rebaseKids ok recur cur l).1
        = l.flatMap (fun c => GitOp.checkout c :: GitOp.rebase cur :: (recur c).1) := by
  intro l
  induction l with
  | nil => intro _; simp [rebaseKids]
  | cons c rest ih =>
    intro hs
    have h1 := hok (GitOp.checkout c)
    have h2 := hok (GitOp.rebase cur)
    cases hr : (recur c).2 with
    | ok =>
      have hs2 : (rebaseKids ok recur cur rest).2 = RStat.ok := by
        simp [rebaseKids, h1, h2, hr] at hs
        exact hs
      simp [rebaseKids, h1, h2, hr, ih hs2]
    | fail => simp [rebaseKids, h1, h2, hr] at hs
    | out => simp [rebaseKids, h1, h2, hr] at hs

/-- Claim C5: propagation is a pre-order depth-first traversal.  A successful
run over any child map unfolds, child by child in recorded order, into
checkout, rebase onto the current branch, then the whole child subtree before
the next sibling; on the linear chain A → B → C → D the trace is checkout and
rebase for B, then C, then D, in that order; and a branch with no children
performs no operation and succeeds. -/
theorem recursive_rebase_preorder :
    (∀ (ok : GitOp → Bool) (cm : String → List String) (n : Nat) (cur : String),
        (∀ o, ok o = true) → (recursiveRebase ok cm (n+1) cur).2 = RStat.ok →
        (recursiveRebase ok cm (n+1) cur).1
          = (cm cur).flatMap
              (fun c => GitOp.checkout c :: GitOp.rebase cur ::
                (recursiveRebase ok cm n c).1))
    ∧ recursiveRebase (fun _ => true) chainCM 4 "A"
        = ([GitOp.checkout "B", GitOp.rebase "A", GitOp.checkout "C", GitOp.rebase "B",
            GitOp.checkout "D", GitOp.rebase "C"], RStat.ok)
    ∧ ∀ (ok : GitOp → Bool) (cm : String → List String) (n : Nat) (cur : String),
        cm cur = [] → recursiveRebase ok cm (n+1) cur = ([], RStat.ok) := by
  refine ⟨?_, by decide, ?_⟩
  · intro ok cm n cur hok hs
    exact rebaseKids_preorder ok (recursiveRebase ok cm n) cur hok (cm cur) hs
  · intro ok cm n cur hcm
    simp [recursiveRebase, hcm, rebaseKids]

/-- Witness for C5: the pre-order unfolding evaluated from branch C of the
chain with everything succeeding. -/
theorem recursive_rebase_preorder_witness :
    (recursiveRebase (fun _ => true) chainCM 2 "C").1
      = (chainCM "C").flatMap
          (fun c => GitOp.checkout c :: GitOp.rebase "C" ::
            (recursiveRebase (fun _ => true) chainCM 1 c).1) :=
  recursive_rebase_preorder.1 (fun _ => true) chainCM 1 "C" (fun _ => rfl) (by decide)

/-- On a successful pass every attempted operation succeeded. -/
theorem rebaseKids_ok_all (ok : GitOp → Bool) (recur : String → List GitOp × RStat)
    (cur : String)
    (hrec : ∀ c, (recur c).2 = RStat.ok → ∀ o ∈ (recur c).1, ok o = true) :
    ∀ l, (rebaseKids ok recur cur l).2 = RStat.ok →
      ∀ o ∈ (rebaseKids ok recur cur l).1, ok o = true := by
  intro l
  induction l with
  | nil =>
    intro _ o ho
    simp [rebaseKids] at ho
  | cons c rest ih =>
    intro hs o ho
    cases h1 : ok (GitOp.checkout c) with
    | false => simp [rebaseKids, h1] at hs
    | true =>
      cases h2 : ok (GitOp.rebase cur) with
      | false => simp [rebaseKids, h1, h2] at hs
      | true =>
        cases hr : (recur c).2 with
        | ok =>
          have hs2 : (rebaseKids ok recur cur rest).2 = RStat.ok := by
            simp [rebaseKids, h1, h2, hr] at hs
            exact hs
          simp [rebaseKids, h1, h2, hr] at ho
          rcases ho with ho | ho | ho | ho
          · rw [ho]; exact h1
          · rw [ho]; exact h2
          · exact hrec c hr o ho
          · exact ih hs2 o ho
        | fail => simp [rebaseKids, h1, h2, hr] at hs
        | out => simp [rebaseKids, h1, h2, hr] at hs

/-- On a successful run of recursive_rebase every attempted operation
succeeded. -/
theorem recursiveRebase_ok_all (ok : GitOp → Bool) (cm : String → List String) :
    ∀ (n : Nat) (cur : String), (recursiveRebase ok cm n cur).2 = RStat.ok →
      ∀ o ∈ (recursiveRebase ok cm n cur).1, ok o = true := by
  intro n
  induction n with
  | zero =>
    intro cur hs
    simp [recursiveRebase] at hs
  | succ n ih =>
    intro cur hs o ho
    exact rebaseKids_ok_all ok (recursiveRebase ok cm n) cur ih (cm cur) hs o ho

/-- A failed pass over a child list decomposes as successful operations
followed by a single failing one, with nothing after it. -/
theorem rebaseKids_fail_split (ok : GitOp → Bool) (recur : String → List GitOp × RStat)
    (cur : String)
    (hrecOk : ∀ c, (recur c).2 = RStat.ok → ∀ o ∈ (recur c).1, ok o = true)
    (hrecFail : ∀ c, (recur c).2 = RStat.fail →
        ∃ pre o, (recur c).1 = pre ++ [o] ∧ ok o = false ∧ ∀ p ∈ pre, ok p = true) :
    ∀ l, (rebaseKids ok recur cur l).2 = RStat.fail →
      ∃ pre o, (rebaseKids ok recur cur l).1 = pre ++ [o] ∧ ok o = false ∧
        ∀ p ∈ pre, ok p = true := by
  intro l
  induction l with
  | nil =>
    intro hs
    simp [rebaseKids] at hs
  | cons c rest ih =>
    intro hs
    cases h1 : ok (GitOp.checkout c) with
    | false =>
      refine ⟨[], GitOp.checkout c, ?_, h1, by simp⟩
      simp [rebaseKids, h1]
    | true =>
      cases h2 : ok (GitOp.rebase cur) with
      | false =>
        refine ⟨[GitOp.checkout c], GitOp.rebase cur, ?_, h2, ?_⟩
        · simp [rebaseKids, h1, h2]
        · intro p hp
          rw [List.mem_singleton.mp hp]
          exact h1
      | true =>
        cases hr : (recur c).2 with
        | ok =>
          have hs2 : (rebaseKids ok recur cur rest).2 = RStat.fail := by
            simp [rebaseKids, h1, h2, hr] at hs
            exact hs
          obtain ⟨pre2, o, hsplit, hof, hpre2⟩ := ih hs2
          refine ⟨GitOp.checkout c :: GitOp.rebase cur :: ((recur c).1 ++ pre2), o, ?_, hof, ?_⟩
          · simp [rebaseKids, h1, h2, hr, hsplit]
          · intro p hp
            simp only [List.mem_cons] at hp
            rcases hp with hp | hp | hp
            · rw [hp]; exact h1
            · rw [hp]; exact h2
            · rcases List.mem_append.mp hp with hp | hp
              · exact hrecOk c hr p hp
              · exact hpre2 p hp
        | fail =>
          obtain ⟨pre1, o, hsplit, hof, hpre1⟩ := hrecFail c hr
          refine ⟨GitOp.checkout c :: GitOp.rebase cur :: pre1, o, ?_, hof, ?_⟩
          · simp [rebaseKids, h1, h2, hr, hsplit]
          · intro p hp
            simp only [List.mem_cons] at hp
            rcases hp with hp | hp | hp
            · rw [hp]; exact h1
            · rw [hp]; exact h2
            · exact hpre1 p hp
        | out => simp [rebaseKids, h1, h2, hr] at hs

/-- Oracle under which every git call succeeds except checking out branch
"C". -/
def okFailCheckoutC : GitOp → Bool := fun o => decide (o ≠ GitOp.checkout "C")

/-- Claim C6: when a checkout or rebase fails during propagation, the run
aborts at that very operation: the attempted trace is a sequence of successful
operations followed by the single failing one, nothing more (no remaining
sibling or descendant is attempted, nothing is rolled back); and at the loop
level a failing child subtree stops the pass before the next sibling gets any
operation. -/
theorem recursive_rebase_abort :
    (∀ (ok : GitOp → Bool) (cm : String → List String) (n : Nat) (cur : String),
        (recursiveRebase ok cm n cur).2 = RStat.fail →
        ∃ pre o, (recursiveRebase ok cm n cur).1 = pre ++ [o] ∧ ok o = false ∧
          ∀ p ∈ pre, ok p = true)
    ∧ ∀ (ok : GitOp → Bool) (recur : String → List GitOp × RStat) (cur c : String)
        (rest : List String),
        ok (GitOp.checkout c) = true → ok (GitOp.rebase cur) = true →
        (recur c).2 = RStat.fail →
        rebaseKids ok recur cur (c :: rest)
          = (GitOp.checkout c :: GitOp.rebase cur :: (recur c).1, RStat.fail) := by
  constructor
  · intro ok cm n
    induction n with
    | zero =>
      intro cur hs
      simp [recursiveRebase] at hs
    | succ n ih =>
      intro cur hs
      exact rebaseKids_fail_split ok (recursiveRebase ok cm n) cur
        (recursiveRebase_ok_all ok cm n) ih (cm cur) hs
  · intro ok recur cur c rest h1 h2 hr
    simp [rebaseKids, h1, h2, hr]

/-- Witness for C6: with the checkout of C failing, the run from A aborts at
that checkout after the successful checkout and rebase of B. -/
theorem recursive_rebase_abort_witness :
    ∃ pre o, (recursiveRebase okFailCheckoutC chainCM 4 "A").1 = pre ++ [o]
      ∧ okFailCheckoutC o = false ∧ ∀ p ∈ pre, okFailCheckoutC p = true :=
  recursive_rebase_abort.1 okFailCheckoutC chainCM 4 "A" (by decide)

/-- The children loop of print_tree (main.rs lines 271-274): each child is
rendered through the supplied continuation with the accumulated indentation,
the last child flagged as last sibling. -/
def printTreeKids (recur : String → String → Bool → List String) (pre : String) :
    List String → List String
  | [] => []
  | [c] => recur c pre true
  | c :: c2 :: rest => recur c pre false ++ printTreeKids recur pre (c2 :: rest)

/-- print_tree (main.rs lines 240-278) as the list of printed lines, with
explicit fuel for the unbounded recursion.  The connector is empty when the
accumulated indentation is empty, otherwise the end-branch or mid-branch
glyph; the current branch gets a marker; each node also prints an indented
one-line commit summary; the indentation passed to the children stays empty
when the current indentation is empty. -/
def printTree (cm : String → List String) (cinfo : String → String) (current : String) :
    Nat → String → String → Bool → List String
  | 0, _, _, _ => []
  | n+1, branch, pre, isLast =>
    let connector := if pre = "" then "" else if isLast then "└── " else "├── "
    let marker := if branch = current then " ◀" else ""
    let newPre := if pre = "" then "" else if isLast then pre ++ "    " else pre ++ "│   "
    (pre ++ connector ++ branch ++ marker) :: (pre ++ "    " ++ cinfo branch) ::
      printTreeKids (printTree cm cinfo current n) newPre (cm branch)

/-- Child map of the two-level stack of claim C2: root R with children X then
Y, X with child Z. -/
def treeCM : String → List String := fun b =>
  if b = "R" then ["X", "Y"]
  else if b = "X" then ["Z"]
  else []

/-- Claim C2 fails on the code: cmd_log invokes print_tree with an empty
accumulated indentation (main.rs line 234), and with an empty indentation the
connector is empty and the indentation handed to the children stays empty, so
every branch of the R, X then Y, X has Z stack prints flush left with no
mid-branch or end-branch glyph and no indentation; no printed line contains a
connector glyph. -/
theorem print_tree_flat_cex :
    printTree treeCM (fun b => String.append "commit " b) "R" 4 "R" "" true
      = ["R ◀", "    commit R",
         "X", "    commit X",
         "Z", "    commit Z",
         "Y", "    commit Y"]
    ∧ (printTree treeCM (fun b => String.append "commit " b) "R" 4 "R" "" true).all
        (fun l => !(l.toList.contains '├') && !(l.toList.contains '└')
          && !(l.toList.contains '│')) = true := by
  constructor
  · decide
  · decide

/-- Rust split_whitespace over a line of characters (main.rs line 103):
maximal runs of non-whitespace characters, in order, with no empty tokens.
The first argument is the remaining input, the second the current token
reversed. -/
def splitWsAux : List Char → List Char → List (List Char)
  | [], acc => if acc.isEmpty then [] else [acc.reverse]
  | c :: rest, acc =>
    if c.isWhitespace then
      if acc.isEmpty then splitWsAux rest [] else acc.reverse :: splitWsAux rest []
    else splitWsAux rest (c :: acc)

/-- The whitespace split of a full line. -/
def splitWs (l : List Char) : List (List Char) := splitWsAux l []

/-- Rust strip_prefix (main.rs line 111): the remainder after the expected
leading characters, or none. -/
def stripPre : List Char → List Char → Option (List Char)
  | [], s => some s
  | _ :: _, [] => none
  | p :: ps, c :: cs => if c = p then stripPre ps cs else none

/-- Rust strip_suffix (main.rs line 112): the remainder before the expected
trailing characters, or none. -/
def stripSuf (suf s : List Char) : Option (List Char) :=
  match stripPre suf.reverse s.reverse with
  | some r => some r.reverse
  | none => none

/-- The fixed leading key part "branch." checked by get_child_map. -/
def keyPre : List Char := "branch.".toList

/-- The fixed trailing key part ".stack-parent" checked by get_child_map. -/
def keySuf : List Char := ".stack-parent".toList

/-- The per-line parse of get_child_map (main.rs lines 102-117): the line must
split into exactly two whitespace tokens, the key must carry the fixed pattern
around the child name; anything else is skipped, yielding none. -/
def parseLine (line : List Char) : Option (List Char × List Char) :=
  match splitWs line with
  | [k, v] =>
    match stripPre keyPre k with
    | some r =>
      match stripSuf keySuf r with
      | some child => some (child, v)
      | none => none
    | none => none
  | _ => none

/-- The map update of get_child_map (main.rs lines 113-115): push the child
onto the entry of its parent, creating the entry when absent. -/
def addChild (m : List Char → List (List Char)) (p c : List Char) :
    List Char → List (List Char) :=
  fun q => if q = p then m q ++ [c] else m q

/-- The fold of get_child_map over the query output lines (main.rs lines
100-119), starting from the empty map. -/
def buildChildMap (lines : List (List Char)) : List Char → List (List Char) :=
  lines.foldl
    (fun m line =>
      match parseLine line with
      | some cp => addChild m cp.2 cp.1
      | none => m)
    (fun _ => [])

/-- get_child_map (main.rs lines 94-120): a failing config query (reported as
none) yields the empty map, otherwise the lines are parsed and folded. -/
def getChildMap (query : Option (List (List Char))) : List Char → List (List Char) :=
  match query with
  | none => fun _ => []
  | some lines => buildChildMap lines

/-- The line the external config query emits for one persisted parent link:
the key "branch.", child, ".stack-parent", a space, then the parent value. -/
def renderLink (cp : List Char × List Char) : List Char :=
  keyPre ++ cp.1 ++ keySuf ++ ' ' :: cp.2

/-- Consuming a run of non-whitespace characters accumulates them onto the
current token. -/
theorem splitWsAux_nonws (k : List Char) (h : ∀ ch ∈ k, ch.isWhitespace = false) :
    ∀ (rest acc : List Char), splitWsAux (k ++ rest) acc = splitWsAux rest (k.reverse ++ acc) := by
  induction k with
  | nil => intro rest acc; simp
  | cons c cs ih =>
    intro rest acc
    have hc : c.isWhitespace = false := h c (List.mem_cons_self c cs)
    simp only [List.cons_append, splitWsAux, hc, Bool.false_eq_true, if_false,
      List.append_eq]
    rw [ih (fun ch hch => h ch (List.mem_cons_of_mem c hch)) rest (c :: acc)]
    congr 1
    simp

/-- Splitting a line made of two nonempty whitespace-free tokens joined by a
single space gives exactly those two tokens. -/
theorem splitWs_two (k v : List Char) (hk : k ≠ []) (hknw : ∀ ch ∈ k, ch.isWhitespace = false)
    (hv : v ≠ []) (hvnw : ∀ ch ∈ v, ch.isWhitespace = false) :
    splitWs (k ++ ' ' :: v) = [k, v] := by
  have hsp : (' ' : Char).isWhitespace = true := by decide
  have hkr : k.reverse.isEmpty = false := by
    cases hh : k.reverse with
    | nil => exact absurd (List.reverse_eq_nil_iff.mp hh) hk
    | cons a as => rfl
  have hvr : v.reverse.isEmpty = false := by
    cases hh : v.reverse with
    | nil => exact absurd (List.reverse_eq_nil_iff.mp hh) hv
    | cons a as => rfl
  have h2 : splitWsAux v [] = [v] := by
    have h3 := splitWsAux_nonws v hvnw [] []
    rw [List.append_nil] at h3
    rw [h3]
    simp [splitWsAux, hvr]
  unfold splitWs
  rw [splitWsAux_nonws k hknw (' ' :: v) []]
  rw [List.append_nil]
  simp [splitWsAux, hsp, hkr, h2]

/-- Stripping an exact leading segment leaves the rest. -/
theorem stripPre_append (p s : List Char) : stripPre p (p ++ s) = some s := by
  induction p with
  | nil => rfl
  | cons c cs ih => simp [stripPre, ih]

/-- Stripping an exact trailing segment leaves the front. -/
theorem stripSuf_append (suf c : List Char) : stripSuf suf (c ++ suf) = some c := by
  unfold stripSuf
  rw [List.reverse_append, stripPre_append]
  simp

/-- A rendered link line parses back to exactly its child and parent, provided
the names carry no whitespace and the parent is nonempty. -/
theorem parseLine_renderLink (cp : List Char × List Char)
    (h1 : ∀ ch ∈ cp.1, ch.isWhitespace = false)
    (h2 : ∀ ch ∈ cp.2, ch.isWhitespace = false)
    (h3 : cp.2 ≠ []) :
    parseLine (renderLink cp) = some cp := by
  obtain ⟨c, v⟩ := cp
  simp only at h1 h2 h3
  have hknw : ∀ ch ∈ keyPre ++ c ++ keySuf, ch.isWhitespace = false := by
    have hkp : ∀ ch ∈ keyPre, ch.isWhitespace = false := by decide
    have hks : ∀ ch ∈ keySuf, ch.isWhitespace = false := by decide
    intro ch hch
    rcases List.mem_append.mp hch with hch | hch
    · rcases List.mem_append.mp hch with hch | hch
      · exact hkp ch hch
      · exact h1 ch hch
    · exact hks ch hch
  have hkey : (keyPre ++ c ++ keySuf) ≠ [] := by simp [keyPre]
  have hsplit : splitWs (renderLink (c, v)) = [keyPre ++ c ++ keySuf, v] := by
    have hs := splitWs_two (keyPre ++ c ++ keySuf) v hkey hknw h3 h2
    rw [← hs]
    congr 1
  have hpre2 : stripPre keyPre (keyPre ++ (c ++ keySuf)) = some (c ++ keySuf) :=
    stripPre_append keyPre (c ++ keySuf)
  have hsuf2 : stripSuf keySuf (c ++ keySuf) = some c := stripSuf_append keySuf c
  simp [parseLine, hsplit, hpre2, hsuf2]

/-- Folding the map updates over a link list appends, at each parent, exactly
the children recorded for that parent in enumeration order. -/
theorem foldl_addChild (links : List (List Char × List Char)) :
    ∀ (m : List Char → List (List Char)) (p : List Char),
      (links.foldl (fun m cp => addChild m cp.2 cp.1) m) p
        = m p ++ (links.filter (fun cp => cp.2 == p)).map Prod.fst := by
  induction links with
  | nil => intro m p; simp
  | cons cp rest ih =>
    intro m p
    simp only [List.foldl_cons]
    rw [ih]
    by_cases hp : cp.2 = p
    · subst hp
      simp [addChild, List.filter_cons]
    · simp [addChild, List.filter_cons, hp, Ne.symm hp]

/-- Claim C8: get_child_map maps each parent to exactly the children whose
link value is that parent, in enumeration order; a line that does not parse
(wrong token count or wrong key pattern) is skipped without affecting the map;
a failing query yields the empty map, as does an empty line set. -/
theorem get_child_map_spec :
    (∀ (links : List (List Char × List Char)) (p : List Char),
        (∀ cp ∈ links, (∀ ch ∈ cp.1, ch.isWhitespace = false)
            ∧ (∀ ch ∈ cp.2, ch.isWhitespace = false) ∧ cp.2 ≠ []) →
        getChildMap (some (links.map renderLink)) p
          = (links.filter (fun cp => cp.2 == p)).map Prod.fst)
    ∧ (∀ (pre post : List (List Char)) (line : List Char) (p : List Char),
        parseLine line = none →
        getChildMap (some (pre ++ line :: post)) p = getChildMap (some (pre ++ post)) p)
    ∧ (∀ p, getChildMap none p = [])
    ∧ (∀ p, getChildMap (some []) p = []) := by
  refine ⟨?_, ?_, fun _ => rfl, fun _ => rfl⟩
  · intro links p h
    show (buildChildMap (links.map renderLink)) p = _
    unfold buildChildMap
    rw [List.foldl_map]
    rw [List.foldl_ext _ (fun m cp => addChild m cp.2 cp.1) _
      (fun m cp hcp => by rw [parseLine_renderLink cp (h cp hcp).1 (h cp hcp).2.1 (h cp hcp).2.2])]
    rw [foldl_addChild]
    simp
  · intro pre post line p hline
    show (buildChildMap (pre ++ line :: post)) p = (buildChildMap (pre ++ post)) p
    unfold buildChildMap
    rw [List.foldl_append, List.foldl_append, List.foldl_cons, hline]

/-- Concrete persisted links: x and y on parent r, z on parent x. -/
def linksW : List (List Char × List Char) :=
  [("x".toList, "r".toList), ("y".toList, "r".toList), ("z".toList, "x".toList)]

/-- Witness for C8: the children of r are x then y, in enumeration order. -/
theorem get_child_map_spec_witness :
    getChildMap (some (linksW.map renderLink)) "r".toList
      = (linksW.filter (fun cp => cp.2 == "r".toList)).map Prod.fst :=
  get_child_map_spec.1 linksW "r".toList (by decide)
